import Mathlib

/-!
Verification development for the PII sanitization engine of the OIS repository
(`src/new/PII/function.py` and `src/function_app.py`).

Python strings are modelled as `List Char` (a Python `str` is a sequence of
code points, indexed per code point). A docx run is modelled as its text
payload plus an opaque style handle. All definitions below are translated
from the Python source; the doc comment of each definition names the
function it embeds.
-/

namespace OIS

/-- Model of a Python `str`: a sequence of code points. -/
abbrev Str := List Char

/-- Model of a python-docx run: the text payload (`run.text`) plus an opaque
style handle standing for all the formatting XML attached to the run (font,
bold/italic, color, ...). The replacement engine only ever assigns to
`run.text`, which is why the style handle is a plain value here. -/
structure Run where
  text : Str
  style : Nat
  deriving DecidableEq, Repr

instance : Inhabited Run := ⟨⟨[], 0⟩⟩

/-- Concatenated visible text of a paragraph's runs, as built by the
`full_text += run.text` loop of `_apply_replacements_to_paragraph`. -/
def concatText (runs : List Run) : Str :=
  (runs.map Run.text).flatten

/-- One candidate replacement dict as received from the detection collaborator:
`r.get("original")` / `r.get("replacement")` may be absent (`None`), which is
modelled with `Option`. -/
structure Candidate where
  original : Option Str
  replacement : Option Str
  deriving DecidableEq, Repr

/-- One normalized replacement entry `{"original": ..., "replacement": ...}`
as consumed by the splicer and the redaction engine. -/
structure Replacement where
  original : Str
  replacement : Str
  deriving DecidableEq, Repr

/-- The filtering half of the replacement-set builder in `sanitize_pdf_bytes`
and `sanitize_docx_bytes` (the two copies are identical): an entry is kept
exactly when `r.get("original") is not None and r.get("replacement") is not
None`. -/
def keptReplacements (cands : List Candidate) : List Replacement :=
  cands.filterMap fun c =>
    match c.original, c.replacement with
    | some o, some r => some ⟨o, r⟩
    | _, _ => none

/-- Comparison used to model `repl_list.sort(key=lambda x: len(x["original"]),
reverse=True)`: `a` may precede `b` iff `len(b.original) ≤ len(a.original)`. -/
def lenDescLE (a b : Replacement) : Bool :=
  decide (b.original.length ≤ a.original.length)

/-- The replacement-set builder of `sanitize_pdf_bytes` / `sanitize_docx_bytes`:
keep the entries with both fields present, then sort by `len(original)`
descending. Python's `list.sort` is a stable sort, which is modelled by
`List.mergeSort` (stable for any total transitive comparison). -/
def buildReplList (cands : List Candidate) : List Replacement :=
  (keptReplacements cands).mergeSort lenDescLE

/-! ### Search patterns (`_needs_word_boundary`, `_build_search_pattern`) -/

/-- Model of Python `str.isupper()` for ASCII text: at least one cased
character and no lower-case character. -/
def pyIsUpper (s : Str) : Bool :=
  s.any Char.isAlpha && s.all fun c => !c.isLower

/-- Model of Python `str.isalpha()` for ASCII text: non-empty and all
alphabetic. -/
def pyIsAlpha (s : Str) : Bool :=
  !s.isEmpty && s.all Char.isAlpha

/-- Embeds `_needs_word_boundary`: short (at most 3 chars) all-uppercase
alphabetic originals get word-boundary, case-sensitive matching. -/
def needsWordBoundary (original : Str) : Bool :=
  decide (original.length ≤ 3) && pyIsUpper original && pyIsAlpha original

/-- The characters escaped by Python 3.7+ `re.escape`
(its `_special_chars_map` is built from `b'()[]{}?*+-|^$\.&~# \t\n\r\v\f'`). -/
def reSpecialChars : Str :=
  ['(', ')', '[', ']', '{', '}', '?', '*', '+', '-', '|', '^', '$', '\\', '.', '&', '~', '#',
   ' ', '\t', '\n', '\r', Char.ofNat 11, Char.ofNat 12]

/-- Whether `re.escape` escapes the character. -/
def reEscapeSpecial (c : Char) : Bool := reSpecialChars.contains c

/-- Embeds `re.escape`: backslash-escape every special character. -/
def reEscape : Str → Str
  | [] => []
  | c :: cs => if reEscapeSpecial c then '\\' :: c :: reEscape cs else c :: reEscape cs

/-- Embeds `_build_search_pattern`: returns the regex pattern string and
whether the search is case-insensitive (`re.IGNORECASE` present).
Word-boundary patterns are `\b` + escaped original + `\b` with
case-sensitive matching; everything else is the escaped original with
case-insensitive matching. -/
def buildSearchPatternStr (original : Str) : Str × Bool :=
  if needsWordBoundary original then ('\\' :: 'b' :: (reEscape original ++ ['\\', 'b']), false)
  else (reEscape original, true)

/-- A compiled token of the regex subset that escaped literals (plus the `\b`
anchors) can produce: a literal character, the `.` wildcard, or a word
boundary assertion. -/
inductive PatTok where
  | lit (c : Char)
  | wild
  | wb
  deriving DecidableEq, Repr

/-- Unescaped regex metacharacters whose constructs fall outside the token
model above (groups, repetition, classes, anchors, alternation). -/
def regexMetaChars : Str :=
  ['^', '$', '*', '+', '?', '{', '}', '[', ']', '|', '(', ')']

def regexSpecial (c : Char) : Bool := regexMetaChars.contains c

/-- Model of `re.compile` on the pattern subset reachable from
`_build_search_pattern`: `\b` compiles to a word-boundary assertion, a
backslash before a non-alphanumeric character to that literal character, `.`
to the wildcard, and a plain non-metacharacter to itself. A dangling
backslash, an escaped alphanumeric (class/backreference constructs) or an
unescaped metacharacter is a compile failure, modelled as `none`. -/
def parsePat : Str → Option (List PatTok)
  | [] => some []
  | c :: rest =>
    if c == '\\' then
      match rest with
      | [] => none
      | c2 :: rest2 =>
        if c2 == 'b' then (parsePat rest2).map (PatTok.wb :: ·)
        else if c2.isAlphanum then none
        else (parsePat rest2).map (PatTok.lit c2 :: ·)
    else if c == '.' then (parsePat rest).map (PatTok.wild :: ·)
    else if regexSpecial c then none
    else (parsePat rest).map (PatTok.lit c :: ·)

/-- Character comparison under an optional `re.IGNORECASE` flag (ASCII model:
both sides lower-cased). -/
def charEqCI (ci : Bool) (a b : Char) : Bool :=
  if ci then a.toLower == b.toLower else a == b

/-- Regex word character `\w` (ASCII model): alphanumeric or underscore. -/
def isWordCharB (c : Char) : Bool := c.isAlphanum || c == '_'

/-- Whether the character at offset `i` of `text` is a word character
(out-of-range counts as non-word). -/
def wordnessAt (text : Str) (i : Nat) : Bool :=
  match text[i]? with
  | some c => isWordCharB c
  | none => false

/-- Regex `\b`: a word boundary at offset `i` of `text`. -/
def wordBoundaryAt (text : Str) (i : Nat) : Bool :=
  (if i == 0 then false else wordnessAt text (i - 1)) != wordnessAt text i

/-- Run the compiled tokens at a fixed offset; returns the end offset of the
match. Literal and wildcard tokens consume one character, boundary
assertions consume none. -/
def toksMatchAt (ci : Bool) : List PatTok → Str → Nat → Option Nat
  | [], _, i => some i
  | .wb :: rest, text, i =>
    if wordBoundaryAt text i then toksMatchAt ci rest text i else none
  | .lit c :: rest, text, i =>
    match text[i]? with
    | some d => if charEqCI ci c d then toksMatchAt ci rest text (i + 1) else none
    | none => none
  | .wild :: rest, text, i =>
    match text[i]? with
    | some _ => toksMatchAt ci rest text (i + 1)
    | none => none

/-- Model of `re.search` for the compiled token patterns: Python scans start
offsets left to right and returns the first offset where the pattern
matches, as a `(start, end)` pair. -/
def reSearchToks (ci : Bool) (toks : List PatTok) (text : Str) : Option (Nat × Nat) :=
  ((List.range (text.length + 1)).filterMap
    fun i => (toksMatchAt ci toks text i).map fun e => (i, e)).head?

/-- Case-insensitive-or-exact equality of two strings of equal length, the
semantics a compiled escaped literal has. -/
def matchesCI (ci : Bool) (needle hay : Str) : Bool :=
  needle.length == hay.length && (needle.zip hay).all fun p => charEqCI ci p.1 p.2

/-! ### The cross-run splicer (`_apply_replacements_to_paragraph`) -/

/-- One element of the `run_boundaries` list built by
`_apply_replacements_to_paragraph`: the run, its index, and the interval
`[start, stop)` its text occupies in the concatenated paragraph text. -/
structure RunInfo where
  idx : Nat
  run : Run
  start : Nat
  stop : Nat
  deriving Repr

/-- Builds the `run_boundaries` list: `start` accumulates the lengths of the
preceding run texts, exactly as the `full_text += run.text` loop does. -/
def runInfosAux : Nat → Nat → List Run → List RunInfo
  | _, _, [] => []
  | i, acc, r :: rs => ⟨i, r, acc, acc + r.text.length⟩ :: runInfosAux (i + 1) (acc + r.text.length) rs

def runInfos (runs : List Run) : List RunInfo := runInfosAux 0 0 runs

/-- The overlap test of the splicer: a run is affected by the match
`[ms, me)` iff `start < match_end and end > match_start`. -/
def overlapsB (ms me : Nat) (b : RunInfo) : Bool :=
  decide (b.start < me) && decide (ms < b.stop)

/-- The `prefix` kept by the first affected run: its text up to
`prefix_len = max 0 (match_start - start)` (Nat subtraction is clamped
at 0 like the Python `max`). -/
def preOf (fa : RunInfo) (ms : Nat) : Str := fa.run.text.take (ms - fa.start)

/-- The `suffix` kept by the last affected run:
`text[len(text) - suffix_len:] if suffix_len > 0 else ""` with
`suffix_len = max 0 (end - match_end)`. -/
def sufOf (la : RunInfo) (me : Nat) : Str :=
  if 0 < la.stop - me then la.run.text.drop (la.run.text.length - (la.stop - me)) else []

/-- The new payload of one run under a splice: the in-place mutations of
the Python code, rendered per boundary entry. `affLen` is `len(affected)`,
`fa` is `affected[0]`, `la` is `affected[-1]`; a non-overlapping run is
untouched, a single affected run becomes `prefix + replacement + suffix`,
the first of several keeps its prefix and receives the replacement, the
last keeps only its suffix, and runs between them are emptied. -/
def spliceRewriteRun (affLen : Nat) (fa la : RunInfo) (ms me : Nat) (repl : Str)
    (b : RunInfo) : Run :=
  if overlapsB ms me b then
    if affLen == 1 then { b.run with text := preOf fa ms ++ repl ++ sufOf la me }
    else if b.idx == fa.idx then { b.run with text := preOf fa ms ++ repl }
    else if b.idx == la.idx then { b.run with text := sufOf la me }
    else { b.run with text := [] }
  else b.run

/-- One splice step of `_apply_replacements_to_paragraph` for a match at
offsets `[ms, me)` of the concatenated text: the `affected` list is the
boundary list filtered by the overlap test, and the runs are rewritten by
`spliceRewriteRun` using its head, its last element and its length. If
nothing overlaps, the runs are returned unchanged (the code breaks out of
the loop). -/
def spliceStep (runs : List Run) (ms me : Nat) (repl : Str) : List Run :=
  match ((runInfos runs).filter (overlapsB ms me)).head?,
        ((runInfos runs).filter (overlapsB ms me)).getLast? with
  | some fa, some la =>
    (runInfos runs).map
      (spliceRewriteRun ((runInfos runs).filter (overlapsB ms me)).length fa la ms me repl)
  | _, _ => runs

/-- The per-entry rescan-and-splice loop of `_apply_replacements_to_paragraph`:
`max_iter = 50` iterations at most; each iteration rebuilds the concatenated
text, searches for the first match, breaks when there is none (or nothing
overlaps), otherwise splices and rescans. Returns the new runs and the
number of replacements made for this entry. -/
def applyEntryLoop (ci : Bool) (toks : List PatTok) (repl : Str) : Nat → List Run → List Run × Nat
  | 0, runs => (runs, 0)
  | fuel + 1, runs =>
    if runs.isEmpty then (runs, 0)
    else
      match reSearchToks ci toks (concatText runs) with
      | none => (runs, 0)
      | some (ms, me) =>
        if ((runInfos runs).filter (overlapsB ms me)).isEmpty then (runs, 0)
        else
          let out := applyEntryLoop ci toks repl fuel (spliceStep runs ms me repl)
          (out.1, out.2 + 1)

/-- Processing of one replacement entry: build and compile the search
pattern, then run the bounded splice loop. A pattern-compile failure (which
cannot happen for escaped patterns) is modelled as a no-op. -/
def applyEntryToRuns (rep : Replacement) (runs : List Run) : List Run × Nat :=
  let pat := buildSearchPatternStr rep.original
  match parsePat pat.1 with
  | some toks => applyEntryLoop pat.2 toks rep.replacement 50 runs
  | none => (runs, 0)

/-- The `for rep in sorted_replacements` loop of
`_apply_replacements_to_paragraph`, threading the runs and the running
count through the entries. -/
def applyEntriesLoop : List Run → Nat → List Replacement → List Run × Nat
  | runs, count, [] => (runs, count)
  | runs, count, rep :: rest =>
    let out := applyEntryToRuns rep runs
    applyEntriesLoop out.1 (count + out.2) rest

/-- Embeds `_apply_replacements_to_paragraph` (minus the hyperlink
unwrapping, which rewrites XML structure before the loop starts): empty
paragraphs return immediately, otherwise every entry is processed in
order. -/
def applyReplacementsToParagraph (runs : List Run) (sortedReplacements : List Replacement) :
    List Run × Nat :=
  if runs.isEmpty then (runs, 0)
  else applyEntriesLoop runs 0 sortedReplacements

/-- Proof-side: shifting a boundary entry by one run index and `dacc` text
positions, the effect of prepending a run of length `dacc` to a
paragraph. -/
def shiftInfo (di dacc : Nat) (b : RunInfo) : RunInfo :=
  ⟨b.idx + di, b.run, b.start + dacc, b.stop + dacc⟩

/-- Proof-side recursive reformulation of the tail of a cross-run splice
(the runs after the first affected one, for a match reaching `me` characters
into them): each run drops its first `me` characters, carrying the
remainder of `me` rightwards. Proved equal to the corresponding part of
`spliceStep` below. -/
def tailModel (me : Nat) : List Run → List Run
  | [] => []
  | r :: rs =>
    if me ≤ r.text.length then { r with text := r.text.drop me } :: rs
    else { r with text := [] } :: tailModel (me - r.text.length) rs

/-- Proof-side recursive reformulation of one splice step, proved equal to
`spliceStep` for in-range matches. -/
def spliceModel (ms me : Nat) (repl : Str) : List Run → List Run
  | [] => []
  | r :: rs =>
    if r.text.length ≤ ms then r :: spliceModel (ms - r.text.length) (me - r.text.length) repl rs
    else if me ≤ r.text.length then
      { r with text := r.text.take ms ++ repl ++ r.text.drop me } :: rs
    else { r with text := r.text.take ms ++ repl } :: tailModel (me - r.text.length) rs

/-- Proof-side: the rewrite a splice applies to the runs after the first
affected one, in the same boundary-list form as `spliceStep` (the last
affected run is the last one starting before the match end). -/
def tailSplice (rs : List Run) (me : Nat) : List Run :=
  match ((runInfos rs).filter fun b => decide (b.start < me)).getLast? with
  | some la =>
    (runInfos rs).map fun b =>
      if b.start < me then
        if b.idx == la.idx then { b.run with text := sufOf la me } else { b.run with text := [] }
      else b.run
  | none => rs

/-! ### Byte-level sanitize entry points -/

/-- Model of `sanitize_docx_bytes` (and, with the page model in place of the
paragraph model, of the structurally identical `sanitize_pdf_bytes`). The
byte-parsing boundary (`Document(BytesIO(...))` / `fitz.open`) is an
injected `parse` function; `none` models an open failure, which the code
turns into `ValueError`. An empty replacement list returns the input bytes
unchanged before any open is attempted (`.inl`); otherwise the parsed
paragraphs are rewritten and serialized (`.inr`). -/
def sanitizeDocxBytesModel (parse : List Nat → Option (List (List Run)))
    (docxBytes : List Nat) (replacements : List Candidate) :
    Except Str (List Nat ⊕ List (List Run)) :=
  if replacements.isEmpty then .ok (.inl docxBytes)
  else
    match parse docxBytes with
    | none => .error "Failed to open DOCX".data
    | some paras =>
      .ok (.inr (paras.map fun p => (applyReplacementsToParagraph p (buildReplList replacements)).1))

/-! ### Backtracking matcher for the safety-net regexes

The safety-net patterns of `_apply_regex_safety_net` are sequences of
greedy bounded character-class repetitions, optionally guarded by the
lookarounds `(?<!\d)` and `(?!\d)`. Each pattern is compiled by hand into a
list of `RItem`s; the matcher below reproduces Python's leftmost /
greedy-with-backtracking semantics for this fragment. -/

/-- One regex element `cls{lo,hi}` (with `hi = none` for `+`): a greedy
bounded repetition of a character class. -/
structure RItem where
  cls : Char → Bool
  lo : Nat
  hi : Option Nat

/-- A safety-net pattern: an optional leading `(?<!\d)`, the element
sequence, and an optional trailing `(?!\d)`. -/
structure RPattern where
  negLB : Bool
  items : List RItem
  negLA : Bool

/-- Length of the maximal prefix of `s` made of characters in `cls` (the
most a greedy repetition of `cls` can consume). -/
def runLen (cls : Char → Bool) : Str → Nat
  | [] => 0
  | c :: cs => if cls c then runLen cls cs + 1 else 0

/-- Greedy backtracking over one repetition: try consuming `k` characters
first, then `k - 1`, ..., down to `lo`, where `f` matches the rest of the
pattern against the remaining text. -/
def matchTry (f : Str → Option Nat) (lo : Nat) (s : Str) : Nat → Option Nat
  | 0 => if lo == 0 then f s else none
  | k + 1 =>
    if k + 1 < lo then none
    else
      match f (s.drop (k + 1)) with
      | some m => some (k + 1 + m)
      | none => matchTry f lo s k

/-- Match the element sequence against a prefix of `s`, returning the number
of characters consumed; `tailOk` is the trailing lookahead, checked (inside
the backtracking, as Python does) once all elements are consumed. The fuel
argument only drives structural recursion; one unit is spent per element. -/
def matchSeqF (tailOk : Str → Bool) : Nat → List RItem → Str → Option Nat
  | 0, _, _ => none
  | _ + 1, [], s => if tailOk s then some 0 else none
  | fuel + 1, it :: rest, s =>
    let maxk := match it.hi with
      | none => runLen it.cls s
      | some h => min h (runLen it.cls s)
    matchTry (matchSeqF tailOk fuel rest) it.lo s maxk

def matchItems (tailOk : Str → Bool) (items : List RItem) (s : Str) : Option Nat :=
  matchSeqF tailOk (items.length + 1) items s

/-- Python whitespace class `\s` (ASCII model). -/
def isPySpace (c : Char) : Bool :=
  c == ' ' || c == '\t' || c == '\n' || c == '\r' || c == Char.ofNat 11 || c == Char.ofNat 12

/-- The trailing `(?!\d)` lookahead: fails when the next character is a
digit. -/
def tailOkFor (p : RPattern) (s : Str) : Bool :=
  if p.negLA then
    match s with
    | c :: _ => !c.isDigit
    | [] => true
  else true

/-- The leading `(?<!\d)` lookbehind: fails when a preceding character
exists and is a digit. -/
def lookbehindFails (p : RPattern) (text : Str) (i : Nat) : Bool :=
  p.negLB && !(i == 0) &&
    (match text[i - 1]? with
     | some c => c.isDigit
     | none => false)

/-- Try pattern `p` anchored at offset `i` of `text`; returns the end offset
of the match. -/
def matchAtPos (p : RPattern) (text : Str) (i : Nat) : Option Nat :=
  if lookbehindFails p text i then none
  else (matchItems (tailOkFor p) p.items (text.drop i)).map fun m => i + m

/-- Leftmost match with start offset at least `pos`, as `(start, end)`. -/
def firstMatchGe (p : RPattern) (text : Str) (pos : Nat) : Option (Nat × Nat) :=
  (((List.range (text.length + 1)).filter fun i => decide (pos ≤ i)).filterMap
    fun i => (matchAtPos p text i).map fun e => (i, e)).head?

/-- Model of `pattern.finditer(text)`: repeatedly take the leftmost match at
or after the current position; continue after the match end (one past the
start for an empty match). The fuel bounds the number of matches; the
position strictly increases each step, so `text.length + 2` is plenty. -/
def findIterAux (p : RPattern) (text : Str) : Nat → Nat → List (Nat × Nat)
  | 0, _ => []
  | fuel + 1, pos =>
    match firstMatchGe p text pos with
    | none => []
    | some (s, e) => (s, e) :: findIterAux p text fuel (if s < e then e else s + 1)

def findIter (p : RPattern) (text : Str) : List (Nat × Nat) :=
  findIterAux p text (text.length + 2) 0

/-- Hand-compiled `[a-zA-Z0-9._%+\-]+@[a-zA-Z0-9.\-]+\.[a-zA-Z]{2,}`. -/
def emailLocalChar (c : Char) : Bool :=
  c.isAlphanum || c == '.' || c == '_' || c == '%' || c == '+' || c == '-'

def emailDomainChar (c : Char) : Bool :=
  c.isAlphanum || c == '.' || c == '-'

def emailPattern : RPattern :=
  ⟨false,
   [⟨emailLocalChar, 1, none⟩, ⟨(· == '@'), 1, some 1⟩, ⟨emailDomainChar, 1, none⟩,
    ⟨(· == '.'), 1, some 1⟩, ⟨Char.isAlpha, 2, none⟩],
   false⟩

def sepSpaceDash (c : Char) : Bool := isPySpace c || c == '-'

def sepSpaceDashDot (c : Char) : Bool := isPySpace c || c == '-' || c == '.'

/-- Hand-compiled `\+\d{1,3}[\s\-]?\d{1,4}[\s\-]?\d{2,4}[\s\-]?\d{3,4}`. -/
def phonePattern1 : RPattern :=
  ⟨false,
   [⟨(· == '+'), 1, some 1⟩, ⟨Char.isDigit, 1, some 3⟩, ⟨sepSpaceDash, 0, some 1⟩,
    ⟨Char.isDigit, 1, some 4⟩, ⟨sepSpaceDash, 0, some 1⟩, ⟨Char.isDigit, 2, some 4⟩,
    ⟨sepSpaceDash, 0, some 1⟩, ⟨Char.isDigit, 3, some 4⟩],
   false⟩

/-- Hand-compiled `\(?\d{3,4}\)?[\s\-\.]\d{3,4}[\s\-\.]\d{3,4}`. -/
def phonePattern2 : RPattern :=
  ⟨false,
   [⟨(· == '('), 0, some 1⟩, ⟨Char.isDigit, 3, some 4⟩, ⟨(· == ')'), 0, some 1⟩,
    ⟨sepSpaceDashDot, 1, some 1⟩, ⟨Char.isDigit, 3, some 4⟩, ⟨sepSpaceDashDot, 1, some 1⟩,
    ⟨Char.isDigit, 3, some 4⟩],
   false⟩

/-- Hand-compiled `(?<!\d)\d{10,12}(?!\d)`. -/
def phonePattern3 : RPattern := ⟨true, [⟨Char.isDigit, 10, some 12⟩], true⟩

def phonePatterns : List RPattern := [phonePattern1, phonePattern2, phonePattern3]

def vxChar (c : Char) : Bool := c == 'V' || c == 'v' || c == 'X' || c == 'x'

/-- Hand-compiled `(?<!\d)\d{9}[VvXx](?!\d)`. -/
def nicPattern1 : RPattern := ⟨true, [⟨Char.isDigit, 9, some 9⟩, ⟨vxChar, 1, some 1⟩], true⟩

/-- Hand-compiled `(?<!\d)\d{12}(?!\d)`. -/
def nicPattern2 : RPattern := ⟨true, [⟨Char.isDigit, 12, some 12⟩], true⟩

def nicPatterns : List RPattern := [nicPattern1, nicPattern2]

/-! ### The regex safety net (`_apply_regex_safety_net`) -/

/-- One replacement dict as handled by the safety net: `original` and
`replacement` are present, `r.get("type")` may be absent. -/
structure Entry where
  original : Str
  etype : Option Str
  replacement : Str
  deriving DecidableEq, Repr

/-- Python `s.lower()` (ASCII model). -/
def lowerStr (s : Str) : Str := s.map Char.toLower

/-- Embeds `re.sub(r'\.(?=[^@]*@)', '', s)`: remove every dot that is
followed, later in the string, by an `@`. -/
def stripDotsBeforeAt : Str → Str
  | [] => []
  | c :: rest =>
    if c == '.' && rest.contains '@' then stripDotsBeforeAt rest
    else c :: stripDotsBeforeAt rest

/-- The `covered` set built at the top of `_apply_regex_safety_net`: the
lower-cased original of every entry, plus, for entries containing `@`, the
dot-stripped normalization. A Python `set` is modelled as a list used only
through membership. -/
def coveredInit : List Entry → List Str
  | [] => []
  | r :: rs =>
    (lowerStr r.original ::
      (if r.original.contains '@' then [stripDotsBeforeAt (lowerStr r.original)] else []))
      ++ coveredInit rs

/-- Embeds `sum(1 for r in replacements if r.get("type") == t)`. -/
def countWithType (reps : List Entry) (t : Str) : Nat :=
  (reps.filter fun r => r.etype == some t).length

/-- Entries counting towards the ID counter:
`r.get("type") in ("id_number", "nic", "passport", "ssn")`. -/
def isIdType (r : Entry) : Bool :=
  r.etype == some "id_number".data || r.etype == some "nic".data ||
  r.etype == some "passport".data || r.etype == some "ssn".data

def countIdTypes (reps : List Entry) : Nat := (reps.filter isIdType).length

def natStr (n : Nat) : Str := Nat.toDigits 10 n

/-- Python `"%0wd"`-style zero padding (`f"{n:04d}"`, `f"{n:06d}"`). -/
def padZeros (w : Nat) (n : Nat) : Str :=
  List.replicate (w - (natStr n).length) '0' ++ natStr n

/-- Replacement value `f"person_{k}@example.com"`. -/
def personRepl (k : Nat) : Str := "person_".data ++ natStr k ++ "@example.com".data

/-- Replacement value `f"+00 00 000 {k:04d}"`. -/
def phoneRepl (k : Nat) : Str := "+00 00 000 ".data ++ padZeros 4 k

/-- Replacement value `f"ID_{k:06d}"`. -/
def idRepl (k : Nat) : Str := "ID_".data ++ padZeros 6 k

def mkEmailEntry (g : Str) (k : Nat) : Entry := ⟨g, some "email".data, personRepl k⟩

def mkPhoneEntry (g : Str) (k : Nat) : Entry := ⟨g, some "phone".data, phoneRepl k⟩

def mkIdEntry (g : Str) (k : Nat) : Entry := ⟨g, some "id_number".data, idRepl k⟩

/-- Python `s.strip()` (ASCII whitespace model). -/
def pyStrip (s : Str) : Str :=
  ((s.dropWhile isPySpace).reverse.dropWhile isPySpace).reverse

/-- The characters removed by `re.sub(r'[\s\-\(\)\.\+]', '', phone)` when
counting a phone's digits. -/
def phoneSepChar (c : Char) : Bool :=
  isPySpace c || c == '-' || c == '(' || c == ')' || c == '.' || c == '+'

def phoneDigitPart (s : Str) : Str := s.filter fun c => !phoneSepChar c

/-- The shared shape of the three `for match in pattern.finditer(...)` loops
of `_apply_regex_safety_net`, over the already-extracted match strings:
skip a match that `keep` rejects (the phone digit-count guard) or whose
lower-cased form is already covered, otherwise append a fresh entry built
by `mk` from the match string and the running counter, record the
lower-cased match as covered, and bump the counter. -/
def netLoop (keep : Str → Bool) (mk : Str → Nat → Entry) :
    List Str → List Entry → List Str → Nat → List Entry × List Str × Nat
  | [], reps, covered, k => (reps, covered, k)
  | g :: gs, reps, covered, k =>
    if keep g then
      if lowerStr g ∈ covered then netLoop keep mk gs reps covered k
      else netLoop keep mk gs (reps ++ [mk g k]) (covered ++ [lowerStr g]) (k + 1)
    else netLoop keep mk gs reps covered k

/-- Python `text[s:e]` for `0 ≤ s ≤ e`. -/
def sliceStr (text : Str) (s e : Nat) : Str := (text.drop s).take (e - s)

/-- The `match.group()` strings of all matches of `p` in `text`, in finditer
order. -/
def patternGroups (p : RPattern) (text : Str) : List Str :=
  (findIter p text).map fun m => sliceStr text m.1 m.2

/-- The phone guard `if len(re.sub(r'[\s\-\(\)\.\+]', '', phone)) < 7: continue`
as a keep-predicate. -/
def phoneKeep (g : Str) : Bool := decide (7 ≤ (phoneDigitPart g).length)

/-- The match strings of the three phone patterns, in processing order,
each stripped (`match.group().strip()`). -/
def phoneGroupsOf (text : Str) : List Str :=
  phonePatterns.flatMap fun p => (patternGroups p text).map pyStrip

/-- The match strings of the two NIC patterns, in processing order. -/
def nicGroupsOf (text : Str) : List Str :=
  nicPatterns.flatMap fun p => patternGroups p text

/-- Embeds `_apply_regex_safety_net`: build the covered set and the email
and phone counters from the incoming list, run the email loop, the three
phone loops (each match string stripped, and skipped when its digit-only
form is shorter than 7), compute the ID counter from the list as augmented
so far, and run the NIC loops. The returned list is the input list plus the
appended additions. -/
def applyRegexSafetyNet (fullText : Str) (replacements : List Entry) : List Entry :=
  let st1 := netLoop (fun _ => true) mkEmailEntry (patternGroups emailPattern fullText)
    replacements (coveredInit replacements) (countWithType replacements "email".data + 1)
  let st2 := netLoop phoneKeep mkPhoneEntry (phoneGroupsOf fullText)
    st1.1 st1.2.1 (countWithType replacements "phone".data + 1)
  let st3 := netLoop (fun _ => true) mkIdEntry (nicGroupsOf fullText)
    st2.1 st2.2.1 (countIdTypes st2.1 + 1)
  st3.1

theorem lenDescLE_trans (a b c : Replacement) :
    lenDescLE a b → lenDescLE b c → lenDescLE a c := by
  simp only [lenDescLE, decide_eq_true_eq]
  omega

theorem lenDescLE_total (a b : Replacement) : lenDescLE a b || lenDescLE b a := by
  simp only [lenDescLE, Bool.or_eq_true, decide_eq_true_eq]
  omega

/-- C1. For every input list of candidate replacement dicts, the replacement
set built by `sanitize_pdf_bytes` / `sanitize_docx_bytes` is ordered by
non-increasing `len(original)`, and entries whose originals have equal
length keep the relative order they had among the kept input entries (the
sort is stable): for each length `n`, filtering the built set down to the
originals of length `n` gives exactly the kept input entries of length `n`
in input order. -/
theorem buildReplList_sorted_lenDesc_and_stable (cands : List Candidate) :
    (buildReplList cands).Pairwise (fun a b => b.original.length ≤ a.original.length) ∧
    ∀ n : Nat, (buildReplList cands).filter (fun r => r.original.length == n) =
      (keptReplacements cands).filter (fun r => r.original.length == n) := by
  constructor
  · have h := @List.sorted_mergeSort _ lenDescLE lenDescLE_trans lenDescLE_total
      (keptReplacements cands)
    exact h.imp (by simp [lenDescLE])
  · intro n
    set l := keptReplacements cands with hl
    set p : Replacement → Bool := fun r => r.original.length == n with hp
    have hc : (l.filter p).Pairwise (lenDescLE · ·) := by
      apply List.pairwise_of_forall_mem_list
      intro a ha b hb
      have ha' := (List.mem_filter.mp ha).2
      have hb' := (List.mem_filter.mp hb).2
      simp only [hp, beq_iff_eq] at ha' hb'
      simp [lenDescLE, ha', hb']
    have hsub : (l.filter p).Sublist (l.mergeSort lenDescLE) :=
      List.sublist_mergeSort lenDescLE_trans lenDescLE_total hc (List.filter_sublist l)
    have hsub' : (l.filter p).Sublist ((l.mergeSort lenDescLE).filter p) := by
      have h2 := hsub.filter p
      rwa [List.filter_filter,
        @List.filter_congr _ _ p _ (by intro a _; simp [Bool.and_self])] at h2
    have hperm : ((l.mergeSort lenDescLE).filter p).Perm (l.filter p) :=
      (List.mergeSort_perm l lenDescLE).filter p
    exact (hsub'.eq_of_length hperm.length_eq.symm).symm

/-- C7 counterexample. The builder does not drop a candidate whose original
is the empty string: the check is `orig is not None`, so
`{"original": "", "replacement": "x"}` is kept and the built set contains
an entry with an empty original. -/
theorem buildReplList_keeps_empty_original :
    ∃ r ∈ buildReplList [⟨some [], some "x".data⟩], r.original = [] := by
  refine ⟨⟨[], "x".data⟩, ?_, rfl⟩
  simp [buildReplList, keptReplacements, List.mergeSort]

/-- C7 amended. The builder drops exactly the candidates with a missing
(`None`) original or a missing replacement: every entry of the built
replacement set comes from an input candidate whose original and
replacement are both present. An empty-string original is not dropped. -/
theorem buildReplList_entries_from_present_fields (cands : List Candidate) (r : Replacement)
    (h : r ∈ buildReplList cands) :
    ∃ c ∈ cands, c.original = some r.original ∧ c.replacement = some r.replacement := by
  have h' : r ∈ keptReplacements cands := List.mem_mergeSort.mp h
  simp only [keptReplacements, List.mem_filterMap] at h'
  obtain ⟨c, hc, he⟩ := h'
  refine ⟨c, hc, ?_⟩
  cases ho : c.original with
  | none => rw [ho] at he; simp at he
  | some o =>
    cases hr : c.replacement with
    | none => rw [ho, hr] at he; simp at he
    | some rep =>
      rw [ho, hr] at he
      simp only [Option.some_inj] at he
      rw [← he]
      exact ⟨rfl, rfl⟩

theorem isUpper_not_isLower (c : Char) (h : c.isUpper = true) : c.isLower = false := by
  simp only [Char.isUpper, Char.isLower, Bool.and_eq_true, decide_eq_true_eq] at *
  obtain ⟨h1, h2⟩ := h
  simp only [Bool.and_eq_false_iff, decide_eq_false_iff_not]
  left
  intro hc
  exact absurd (UInt32.le_trans hc h2) (by decide)

theorem isUpper_isAlpha (c : Char) (h : c.isUpper = true) : c.isAlpha = true := by
  simp [Char.isAlpha, h]

theorem isAlpha_not_lower_isUpper (c : Char) (ha : c.isAlpha = true) (hl : c.isLower = false) :
    c.isUpper = true := by
  simp [Char.isAlpha, hl] at ha
  exact ha

/-- Characterization of `_needs_word_boundary` by elementary conditions:
the original is at most three characters, non-empty, and all-uppercase. -/
theorem needsWordBoundary_iff (o : Str) :
    needsWordBoundary o = true ↔ o.length ≤ 3 ∧ o ≠ [] ∧ ∀ c ∈ o, c.isUpper = true := by
  have hemp : (o.isEmpty = false) ↔ o ≠ [] := by cases o <;> simp
  simp only [needsWordBoundary, pyIsUpper, pyIsAlpha, Bool.and_eq_true, decide_eq_true_eq,
    List.any_eq_true, List.all_eq_true, Bool.not_eq_true', hemp]
  constructor
  · rintro ⟨⟨hlen, hex, hnl⟩, hne, hal⟩
    exact ⟨hlen, hne, fun c hc => isAlpha_not_lower_isUpper c (hal c hc) (hnl c hc)⟩
  · rintro ⟨hlen, hne, hup⟩
    obtain ⟨x, hx⟩ := List.exists_mem_of_ne_nil o hne
    exact ⟨⟨hlen, ⟨x, hx, isUpper_isAlpha x (hup x hx)⟩,
      fun c hc => isUpper_not_isLower c (hup c hc)⟩,
      hne, fun c hc => isUpper_isAlpha c (hup c hc)⟩

theorem reEscapeSpecial_not_b_alnum (c : Char) (h : reEscapeSpecial c = true) :
    (c == 'b') = false ∧ c.isAlphanum = false := by
  have hm : c ∈ reSpecialChars := by
    simpa [reEscapeSpecial, List.contains, List.elem_iff] using h
  simp only [reSpecialChars, List.mem_cons, List.not_mem_nil, or_false] at hm
  rcases hm with rfl|rfl|rfl|rfl|rfl|rfl|rfl|rfl|rfl|rfl|rfl|rfl|rfl|rfl|rfl|rfl|rfl|rfl|rfl|rfl|rfl|rfl|rfl|rfl <;>
    exact ⟨by decide, by decide⟩

theorem nonSpecial_props (c : Char) (h : reEscapeSpecial c = false) :
    (c == '.') = false ∧ regexSpecial c = false ∧ (c == '\\') = false := by
  refine ⟨?_, ?_, ?_⟩
  · by_cases hc : c = '.'
    · subst hc; simp [reEscapeSpecial, reSpecialChars] at h
    · simp [hc]
  · by_cases hr : regexSpecial c = true
    · have hm : c ∈ regexMetaChars := by
        simpa [regexSpecial, List.contains, List.elem_iff] using hr
      simp only [regexMetaChars, List.mem_cons, List.not_mem_nil, or_false] at hm
      have hsp : reEscapeSpecial c = true := by
        rcases hm with rfl|rfl|rfl|rfl|rfl|rfl|rfl|rfl|rfl|rfl|rfl|rfl <;> decide
      rw [hsp] at h; exact absurd h (by simp)
    · simpa using hr
  · by_cases hc : c = '\\'
    · subst hc; simp [reEscapeSpecial, reSpecialChars] at h
    · simp [hc]

theorem parsePat_reEscape (o : Str) : parsePat (reEscape o) = some (o.map PatTok.lit) := by
  induction o with
  | nil => rfl
  | cons c cs ih =>
    by_cases hs : reEscapeSpecial c = true
    · obtain ⟨hb, ha⟩ := reEscapeSpecial_not_b_alnum c hs
      rw [reEscape, if_pos hs, parsePat.eq_def]
      simp [hb, ha, ih]
    · have hs' : reEscapeSpecial c = false := by simpa using hs
      obtain ⟨hd, hr, hbs⟩ := nonSpecial_props c hs'
      rw [reEscape, if_neg (by simp [hs']), parsePat.eq_def]
      simp [hbs, hd, hr, ih]

theorem matchesCI_cons (ci : Bool) (c d : Char) (cs t : Str) :
    matchesCI ci (c :: cs) (d :: t) = (charEqCI ci c d && matchesCI ci cs t) := by
  simp only [matchesCI, List.length_cons, List.zip_cons_cons, List.all_cons]
  cases charEqCI ci c d <;> cases h : (cs.length == t.length) <;> simp_all

theorem toksMatchAt_lit (ci : Bool) (o : Str) : ∀ (text : Str) (i : Nat),
    toksMatchAt ci (o.map PatTok.lit) text i =
      if matchesCI ci o (sliceStr text i (i + o.length)) then some (i + o.length) else none := by
  induction o with
  | nil =>
    intro text i
    simp [toksMatchAt, matchesCI, sliceStr]
  | cons c cs ih =>
    intro text i
    simp only [List.map_cons, toksMatchAt]
    cases hti : text[i]? with
    | none =>
      have hlen : text.length ≤ i := by
        simpa using List.getElem?_eq_none_iff.mp hti
      have hsl : sliceStr text i (i + (c :: cs).length) = [] := by
        simp [sliceStr, List.drop_eq_nil_of_le hlen]
      rw [hsl]
      simp [matchesCI]
    | some d =>
      have hi : i < text.length := by
        by_contra hc
        rw [List.getElem?_eq_none_iff.mpr (by omega)] at hti
        exact Option.noConfusion hti
      have hdrop : text.drop i = d :: text.drop (i + 1) := by
        rw [List.drop_eq_getElem_cons hi]
        congr 1
        have hg := List.getElem?_eq_getElem hi
        rw [hg] at hti
        exact Option.some_inj.mp hti
      have hsl : sliceStr text i (i + (c :: cs).length) =
          d :: sliceStr text (i + 1) ((i + 1) + cs.length) := by
        simp only [sliceStr, hdrop, List.length_cons]
        rw [show i + (cs.length + 1) - i = cs.length + 1 by omega,
          show (i + 1) + cs.length - (i + 1) = cs.length by omega]
        rfl
      rw [hsl, matchesCI_cons]
      cases hcd : charEqCI ci c d
      · simp [hcd]
      · simp only [hcd, Bool.true_and, if_true]
        rw [ih text (i + 1)]
        have harith : i + (c :: cs).length = (i + 1) + cs.length := by simp; omega
        rw [harith]

/-- C3. The search pattern built by `_build_search_pattern` is word-bounded
and case-sensitive exactly when the original is at most 3 characters,
non-empty, and all-uppercase (hence purely alphabetic); every other
original gets the plain escaped pattern with case-insensitive matching.
Consequently, running the splicer with the entry `"IT" -> "Dept_1"` leaves
`"within"`, `"City"` and `"audit"` untouched but rewrites the standalone
token `"IT"`, while the entry `"John Doe" -> "Person_1"` also rewrites
`"JOHN DOE"` and `"john doe"`. -/
theorem buildSearchPattern_wordBounded_iff_and_examples :
    (∀ o : Str,
      (buildSearchPatternStr o = ('\\' :: 'b' :: (reEscape o ++ ['\\', 'b']), false) ↔
        o.length ≤ 3 ∧ o ≠ [] ∧ ∀ c ∈ o, c.isUpper = true) ∧
      (¬(o.length ≤ 3 ∧ o ≠ [] ∧ ∀ c ∈ o, c.isUpper = true) →
        buildSearchPatternStr o = (reEscape o, true))) ∧
    (applyReplacementsToParagraph [⟨"within".data, 0⟩] [⟨"IT".data, "Dept_1".data⟩]).1 =
      [⟨"within".data, 0⟩] ∧
    (applyReplacementsToParagraph [⟨"City".data, 0⟩] [⟨"IT".data, "Dept_1".data⟩]).1 =
      [⟨"City".data, 0⟩] ∧
    (applyReplacementsToParagraph [⟨"audit".data, 0⟩] [⟨"IT".data, "Dept_1".data⟩]).1 =
      [⟨"audit".data, 0⟩] ∧
    (applyReplacementsToParagraph [⟨"IT".data, 0⟩] [⟨"IT".data, "Dept_1".data⟩]).1 =
      [⟨"Dept_1".data, 0⟩] ∧
    (applyReplacementsToParagraph [⟨"JOHN DOE".data, 0⟩] [⟨"John Doe".data, "Person_1".data⟩]).1 =
      [⟨"Person_1".data, 0⟩] ∧
    (applyReplacementsToParagraph [⟨"john doe".data, 0⟩] [⟨"John Doe".data, "Person_1".data⟩]).1 =
      [⟨"Person_1".data, 0⟩] := by
  refine ⟨?_, by decide, by decide, by decide, by decide, by decide, by decide⟩
  intro o
  constructor
  · constructor
    · intro h
      by_cases hc : needsWordBoundary o = true
      · exact (needsWordBoundary_iff o).mp hc
      · rw [buildSearchPatternStr, if_neg hc] at h
        exact absurd (congrArg Prod.snd h) (by simp)
    · intro h
      rw [buildSearchPatternStr, if_pos ((needsWordBoundary_iff o).mpr h)]
  · intro h
    have hc : needsWordBoundary o = false := by
      by_contra hc'
      simp only [Bool.not_eq_false] at hc'
      exact h ((needsWordBoundary_iff o).mp hc')
    rw [buildSearchPatternStr, if_neg (by simp [hc])]

/-- C10. Every original is matched as a literal string, never interpreted
as a regular expression: compiling the escaped original always succeeds and
yields one literal token per character (so regex metacharacters such as
`+`, `(`, `.` in phone numbers and emails are inert), and running those
tokens at any offset of any text matches exactly when the text carries the
original itself there (up to the case-insensitivity flag), ending right
after it. -/
theorem escaped_pattern_literal_matching (o : Str) :
    parsePat (reEscape o) = some (o.map PatTok.lit) ∧
    ∀ (ci : Bool) (text : Str) (i : Nat),
      toksMatchAt ci (o.map PatTok.lit) text i =
        if matchesCI ci o (sliceStr text i (i + o.length)) then some (i + o.length) else none :=
  ⟨parsePat_reEscape o, fun ci text i => toksMatchAt_lit ci o text i⟩

/-- C7 witness: the amended theorem evaluated on a concrete one-candidate
list. -/
theorem buildReplList_entries_from_present_fields_witness :
    ∃ c ∈ [Candidate.mk (some "ab".data) (some "x".data)],
      c.original = some (Replacement.mk "ab".data "x".data).original ∧
      c.replacement = some (Replacement.mk "ab".data "x".data).replacement :=
  buildReplList_entries_from_present_fields
    [Candidate.mk (some "ab".data) (some "x".data)] ⟨"ab".data, "x".data⟩
    (by simp [buildReplList, keptReplacements, List.mergeSort])

theorem applyEntryLoop_count_le_fuel (ci : Bool) (toks : List PatTok) (repl : Str) :
    ∀ (fuel : Nat) (runs : List Run), (applyEntryLoop ci toks repl fuel runs).2 ≤ fuel := by
  intro fuel
  induction fuel with
  | zero => intro runs; simp [applyEntryLoop]
  | succ n ih =>
    intro runs
    by_cases he : runs.isEmpty
    · simp [applyEntryLoop, he]
    · cases hm : reSearchToks ci toks (concatText runs) with
      | none => simp [applyEntryLoop, he, hm]
      | some p =>
        obtain ⟨ms, me⟩ := p
        by_cases ha : ((runInfos runs).filter (overlapsB ms me)).isEmpty
        · simp [applyEntryLoop, he, hm, ha]
        · have hle := ih (spliceStep runs ms me repl)
          simp [applyEntryLoop, he, hm, ha]
          omega

theorem runInfosAux_map_run : ∀ (i acc : Nat) (runs : List Run),
    (runInfosAux i acc runs).map RunInfo.run = runs
  | _, _, [] => rfl
  | i, acc, r :: rs => by
    rw [runInfosAux, List.map_cons, runInfosAux_map_run (i + 1) (acc + r.text.length) rs]

theorem runInfos_map_run (runs : List Run) : (runInfos runs).map RunInfo.run = runs :=
  runInfosAux_map_run 0 0 runs

/-- A splice step either leaves the runs untouched or rewrites them as a map
over the boundary list in which every output run carries the style of the
run it came from. -/
theorem spliceStep_shape (runs : List Run) (ms me : Nat) (repl : Str) :
    spliceStep runs ms me repl = runs ∨
    ∃ g : RunInfo → Run, (∀ b, (g b).style = b.run.style) ∧
      spliceStep runs ms me repl = (runInfos runs).map g := by
  rw [spliceStep]
  split
  · right
    refine ⟨_, ?_, rfl⟩
    intro b
    rw [spliceRewriteRun]
    split
    · split
      · rfl
      · split
        · rfl
        · split <;> rfl
    · rfl
  · left; rfl

theorem spliceStep_styles (runs : List Run) (ms me : Nat) (repl : Str) :
    (spliceStep runs ms me repl).map Run.style = runs.map Run.style := by
  rcases spliceStep_shape runs ms me repl with h | ⟨g, hg, h⟩
  · rw [h]
  · rw [h, List.map_map]
    conv_rhs => rw [← runInfos_map_run runs, List.map_map]
    exact List.map_congr_left fun b _ => by simp [Function.comp, hg b]

theorem applyEntryLoop_styles (ci : Bool) (toks : List PatTok) (repl : Str) :
    ∀ (fuel : Nat) (runs : List Run),
      ((applyEntryLoop ci toks repl fuel runs).1).map Run.style = runs.map Run.style := by
  intro fuel
  induction fuel with
  | zero => intro runs; simp [applyEntryLoop]
  | succ n ih =>
    intro runs
    by_cases he : runs.isEmpty
    · simp [applyEntryLoop, he]
    · cases hm : reSearchToks ci toks (concatText runs) with
      | none => simp [applyEntryLoop, he, hm]
      | some p =>
        obtain ⟨ms, me⟩ := p
        by_cases ha : ((runInfos runs).filter (overlapsB ms me)).isEmpty
        · simp [applyEntryLoop, he, hm, ha]
        · simp only [applyEntryLoop, he, hm, ha]
          simp only [Bool.false_eq_true, if_false, ite_false]
          rw [ih (spliceStep runs ms me repl), spliceStep_styles]

theorem applyEntryToRuns_styles (rep : Replacement) (runs : List Run) :
    ((applyEntryToRuns rep runs).1).map Run.style = runs.map Run.style := by
  rw [applyEntryToRuns]
  cases hp : parsePat (buildSearchPatternStr rep.original).1 with
  | none => rfl
  | some toks => exact applyEntryLoop_styles _ toks rep.replacement 50 runs

theorem applyEntriesLoop_styles :
    ∀ (reps : List Replacement) (runs : List Run) (count : Nat),
      ((applyEntriesLoop runs count reps).1).map Run.style = runs.map Run.style
  | [], _, _ => rfl
  | rep :: rest, runs, count => by
    rw [applyEntriesLoop]
    rw [applyEntriesLoop_styles rest _ _, applyEntryToRuns_styles]

/-- C4. The splicing loop of `_apply_replacements_to_paragraph` modifies
only the text payload of runs: for every paragraph and every replacement
set, the number of runs and the list of style handles are identical before
and after the loop. -/
theorem splicer_preserves_run_count_and_styles (runs : List Run) (reps : List Replacement) :
    ((applyReplacementsToParagraph runs reps).1).length = runs.length ∧
    ((applyReplacementsToParagraph runs reps).1).map Run.style = runs.map Run.style := by
  have hstyles :
      ((applyReplacementsToParagraph runs reps).1).map Run.style = runs.map Run.style := by
    rw [applyReplacementsToParagraph]
    by_cases he : runs.isEmpty
    · simp [he]
    · simp only [he, Bool.false_eq_true, if_false, ite_false]
      exact applyEntriesLoop_styles reps runs 0
  refine ⟨?_, hstyles⟩
  have hlen := congrArg List.length hstyles
  simpa using hlen

/-- C8. For each replacement entry applied to a paragraph, the
rescan-and-splice loop runs at most 50 iterations (the replacement count it
contributes is bounded by 50, and the loop is a total function, so it
always terminates); when the loop is done with one entry — including when
the bound is exhausted — processing simply continues with the next entry of
the list. -/
theorem entry_loop_iteration_bound_and_continuation :
    (∀ (rep : Replacement) (runs : List Run), (applyEntryToRuns rep runs).2 ≤ 50) ∧
    (∀ (runs : List Run) (count : Nat) (rep : Replacement) (rest : List Replacement),
      applyEntriesLoop runs count (rep :: rest) =
        applyEntriesLoop (applyEntryToRuns rep runs).1 (count + (applyEntryToRuns rep runs).2)
          rest) := by
  constructor
  · intro rep runs
    rw [applyEntryToRuns]
    cases hp : parsePat (buildSearchPatternStr rep.original).1 with
    | none => simp
    | some toks => exact applyEntryLoop_count_le_fuel _ toks rep.replacement 50 runs
  · intro runs count rep rest
    rfl

/-- C9 counterexample. With an empty replacement list, `sanitize_docx_bytes`
(and `sanitize_pdf_bytes`) returns the input bytes before ever attempting
to open them, so input bytes that cannot be opened as a document do not
raise `ValueError` in that case — contrary to the claim, which promises an
error whenever the bytes cannot be opened. -/
theorem sanitize_unopenable_empty_replacements_ok :
    sanitizeDocxBytesModel (fun _ => none) [0] [] = Except.ok (Sum.inl [0]) := rfl

/-- C9 amended. When the replacement list is non-empty and the input bytes
cannot be opened, `sanitize_docx_bytes` / `sanitize_pdf_bytes` raise
`ValueError` and produce no mutated output (the error carries no document);
with an empty replacement list the input bytes are returned unchanged
without attempting to open them. A replacement entry whose original occurs
nowhere is never an error: with a successful open the operation always
returns a result, and an entry with no match leaves the paragraph unchanged
and contributes zero replacements. -/
theorem sanitize_open_failure_fatal_unmatched_skipped
    (parse : List Nat → Option (List (List Run))) (bytes : List Nat) (reps : List Candidate) :
    (reps ≠ [] → parse bytes = none →
      sanitizeDocxBytesModel parse bytes reps = Except.error "Failed to open DOCX".data) ∧
    (∀ paras, reps ≠ [] → parse bytes = some paras →
      sanitizeDocxBytesModel parse bytes reps =
        Except.ok (Sum.inr (paras.map fun p =>
          (applyReplacementsToParagraph p (buildReplList reps)).1))) ∧
    (∀ (ci : Bool) (toks : List PatTok) (repl : Str) (runs : List Run),
      reSearchToks ci toks (concatText runs) = none →
      applyEntryLoop ci toks repl 50 runs = (runs, 0)) := by
  refine ⟨?_, ?_, ?_⟩
  · intro hne hp
    have he : reps.isEmpty = false := by cases reps <;> simp_all
    simp [sanitizeDocxBytesModel, he, hp]
  · intro paras hne hp
    have he : reps.isEmpty = false := by cases reps <;> simp_all
    simp [sanitizeDocxBytesModel, he, hp]
  · intro ci toks repl runs hm
    rw [applyEntryLoop]
    by_cases he : runs.isEmpty
    · simp [he]
    · simp [he, hm]

/-- C9 witness: the amended theorem applied at concrete inputs — a failing
parse with one replacement yields the error, a succeeding parse yields the
rewritten paragraphs, and a pattern with no match leaves the runs
unchanged. -/
theorem sanitize_open_failure_fatal_unmatched_skipped_witness :
    sanitizeDocxBytesModel (fun _ => none) [1] [⟨some "a".data, some "b".data⟩] =
      Except.error "Failed to open DOCX".data ∧
    sanitizeDocxBytesModel (fun _ => some [[⟨"a".data, 0⟩]]) [1] [⟨some "a".data, some "b".data⟩] =
      Except.ok (Sum.inr ([[⟨"a".data, 0⟩]].map fun p =>
        (applyReplacementsToParagraph p (buildReplList [⟨some "a".data, some "b".data⟩])).1)) ∧
    applyEntryLoop false [PatTok.lit 'z'] "r".data 50 [⟨"a".data, 0⟩] = ([⟨"a".data, 0⟩], 0) :=
  ⟨(sanitize_open_failure_fatal_unmatched_skipped (fun _ => none) [1]
      [⟨some "a".data, some "b".data⟩]).1 (by simp) rfl,
   (sanitize_open_failure_fatal_unmatched_skipped (fun _ => some [[⟨"a".data, 0⟩]]) [1]
      [⟨some "a".data, some "b".data⟩]).2.1 [[⟨"a".data, 0⟩]] (by simp) rfl,
   (sanitize_open_failure_fatal_unmatched_skipped (fun _ => none) [1]
      [⟨some "a".data, some "b".data⟩]).2.2 false [PatTok.lit 'z'] "r".data [⟨"a".data, 0⟩]
      (by decide)⟩



theorem runInfosAux_shift : ∀ (rs : List Run) (i acc : Nat),
    runInfosAux i acc rs = (runInfos rs).map (shiftInfo i acc)
  | [], _, _ => rfl
  | r :: rs, i, acc => by
    simp only [runInfos, runInfosAux, Nat.zero_add]
    rw [runInfosAux_shift rs (i + 1) (acc + r.text.length), runInfosAux_shift rs 1 r.text.length]
    rw [List.map_cons, List.map_map]
    refine congrArg₂ _ ?_ ?_
    · simp only [shiftInfo, RunInfo.mk.injEq]
      refine ⟨?_, ?_, ?_, ?_⟩ <;> first | trivial | omega
    · refine List.map_congr_left fun b _ => ?_
      simp only [Function.comp_apply, shiftInfo, RunInfo.mk.injEq]
      refine ⟨?_, ?_, ?_, ?_⟩ <;> first | trivial | omega

theorem runInfos_cons (r : Run) (rs : List Run) :
    runInfos (r :: rs) =
      ⟨0, r, 0, r.text.length⟩ :: (runInfos rs).map (shiftInfo 1 r.text.length) := by
  simp only [runInfos, runInfosAux, Nat.zero_add]
  rw [runInfosAux_shift rs 1 r.text.length]
  rfl

theorem concatText_cons (r : Run) (rs : List Run) :
    concatText (r :: rs) = r.text ++ concatText rs := by
  simp [concatText]

theorem overlapsB_shift (n ms me : Nat) (h1 : n ≤ ms) (h2 : ms < me) (b : RunInfo) :
    overlapsB ms me (shiftInfo 1 n b) = overlapsB (ms - n) (me - n) b := by
  simp only [overlapsB, shiftInfo]
  congr 1 <;> rw [decide_eq_decide] <;> omega

theorem affected_cons_skip (r : Run) (rs : List Run) (ms me : Nat)
    (h1 : r.text.length ≤ ms) (h2 : ms < me) :
    (runInfos (r :: rs)).filter (overlapsB ms me) =
      ((runInfos rs).filter (overlapsB (ms - r.text.length) (me - r.text.length))).map
        (shiftInfo 1 r.text.length) := by
  rw [runInfos_cons, List.filter_cons]
  have hh : overlapsB ms me ⟨0, r, 0, r.text.length⟩ = false := by
    simp only [overlapsB]
    have : decide (ms < r.text.length) = false := by simp; omega
    simp [this]
  rw [hh]
  simp only [Bool.false_eq_true, if_false, ite_false]
  rw [List.filter_map]
  congr 1
  exact List.filter_congr fun b _ => overlapsB_shift r.text.length ms me h1 h2 b


theorem beq_add_one (a b : Nat) : (a + 1 == b + 1) = (a == b) := by
  cases h : a == b
  · simp only [beq_eq_false_iff_ne] at *
    omega
  · simp only [beq_iff_eq] at *
    omega

theorem preOf_shift (f : RunInfo) (n ms : Nat) :
    preOf (shiftInfo 1 n f) ms = preOf f (ms - n) := by
  simp only [preOf, shiftInfo]
  congr 1
  omega

theorem sufOf_shift (l : RunInfo) (n me : Nat) (h : n ≤ me) :
    sufOf (shiftInfo 1 n l) me = sufOf l (me - n) := by
  simp only [sufOf, shiftInfo]
  have he : l.stop + n - me = l.stop - (me - n) := by omega
  rw [he]

theorem spliceRewriteRun_shift (len : Nat) (f l : RunInfo) (n ms me : Nat) (repl : Str)
    (h1 : n ≤ ms) (h2 : ms < me) (b : RunInfo) :
    spliceRewriteRun len (shiftInfo 1 n f) (shiftInfo 1 n l) ms me repl (shiftInfo 1 n b) =
      spliceRewriteRun len f l (ms - n) (me - n) repl b := by
  simp only [spliceRewriteRun, overlapsB_shift n ms me h1 h2, preOf_shift, sufOf_shift _ _ _ (by omega : n ≤ me)]
  have hif : ((shiftInfo 1 n b).idx == (shiftInfo 1 n f).idx) = (b.idx == f.idx) := by
    simp only [shiftInfo]
    exact beq_add_one b.idx f.idx
  have hil : ((shiftInfo 1 n b).idx == (shiftInfo 1 n l).idx) = (b.idx == l.idx) := by
    simp only [shiftInfo]
    exact beq_add_one b.idx l.idx
  rw [hif, hil]
  rfl

/-- Case: the head run ends at or before the match start; splicing skips it. -/
theorem spliceStep_cons_skip (r : Run) (rs : List Run) (ms me : Nat) (repl : Str)
    (h1 : r.text.length ≤ ms) (h2 : ms < me) :
    spliceStep (r :: rs) ms me repl =
      r :: spliceStep rs (ms - r.text.length) (me - r.text.length) repl := by
  set n := r.text.length with hn
  rw [spliceStep, spliceStep, affected_cons_skip r rs ms me h1 h2]
  cases haff : (runInfos rs).filter (overlapsB (ms - n) (me - n)) with
  | nil => rfl
  | cons f' t' =>
    rw [List.head?_map, List.getLast?_map]
    have hhd : (f' :: t').head? = some f' := rfl
    have hlst : (f' :: t').getLast? = some ((f' :: t').getLast (by simp)) :=
      List.getLast?_eq_getLast _ _
    rw [hhd, hlst]
    simp only [Option.map_some']
    dsimp only
    rw [runInfos_cons]
    simp only [List.map_cons, List.length_map, List.length_cons]
    refine congrArg₂ _ ?_ ?_
    · rw [spliceRewriteRun]
      have hov : overlapsB ms me ⟨0, r, 0, n⟩ = false := by
        simp only [overlapsB]
        have hd : decide (ms < (⟨0, r, 0, n⟩ : RunInfo).stop) = false := by simp; omega
        simp [hd]
      rw [hov]
      simp
    · rw [List.map_map]
      refine List.map_congr_left fun b _ => ?_
      simp only [Function.comp_apply]
      have hsh := spliceRewriteRun_shift (t'.length + 1) f' ((f' :: t').getLast (by simp))
        n ms me repl h1 h2 b
      simpa [List.length_cons] using hsh


theorem filter_shift_nil (rs : List Run) (n ms me : Nat) (h : me ≤ n) :
    ((runInfos rs).map (shiftInfo 1 n)).filter (overlapsB ms me) = [] := by
  rw [List.filter_eq_nil_iff]
  intro b hb
  obtain ⟨b', _, rfl⟩ := List.mem_map.mp hb
  simp only [overlapsB, shiftInfo, Bool.and_eq_true, decide_eq_true_eq, not_and]
  omega

theorem sufOf_head (r : Run) (stp me : Nat) (h : me ≤ stp) (hs : stp = r.text.length) :
    sufOf ⟨0, r, 0, stp⟩ me = r.text.drop me := by
  simp only [sufOf]
  split
  · congr 1
    omega
  · rw [List.drop_eq_nil_of_le]
    omega

/-- Case: the match lies entirely inside the head run. -/
theorem spliceStep_cons_single (r : Run) (rs : List Run) (ms me : Nat) (repl : Str)
    (h1 : ms < r.text.length) (h2 : ms < me) (h3 : me ≤ r.text.length) :
    spliceStep (r :: rs) ms me repl =
      { r with text := r.text.take ms ++ repl ++ r.text.drop me } :: rs := by
  set n := r.text.length with hn
  have haff : (runInfos (r :: rs)).filter (overlapsB ms me) = [⟨0, r, 0, n⟩] := by
    rw [runInfos_cons, List.filter_cons]
    have hov : overlapsB ms me ⟨0, r, 0, n⟩ = true := by
      simp only [overlapsB, Bool.and_eq_true, decide_eq_true_eq]
      exact ⟨by omega, h1⟩
    rw [hov, filter_shift_nil rs n ms me h3]
    simp
  rw [spliceStep, haff]
  have hhd : ([⟨0, r, 0, n⟩] : List RunInfo).head? = some ⟨0, r, 0, n⟩ := rfl
  have hlst : ([⟨0, r, 0, n⟩] : List RunInfo).getLast? = some ⟨0, r, 0, n⟩ := rfl
  rw [hhd, hlst]
  dsimp only
  rw [runInfos_cons, List.map_cons]
  simp only [List.length_singleton]
  refine congrArg₂ _ ?_ ?_
  · rw [spliceRewriteRun]
    have hov : overlapsB ms me ⟨0, r, 0, n⟩ = true := by
      simp only [overlapsB, Bool.and_eq_true, decide_eq_true_eq]
      exact ⟨by omega, h1⟩
    rw [hov]
    simp only [List.length_singleton, if_true, if_pos]
    rw [sufOf_head r n me h3 hn]
    have hpre : preOf ⟨0, r, 0, n⟩ ms = r.text.take ms := by
      simp [preOf]
    rw [hpre]
    rfl
  · rw [List.map_map]
    have : ∀ b ∈ runInfos rs,
        (spliceRewriteRun 1 ⟨0, r, 0, n⟩ ⟨0, r, 0, n⟩ ms me repl ∘ shiftInfo 1 n) b = b.run := by
      intro b _
      simp only [Function.comp_apply, spliceRewriteRun]
      have hov : overlapsB ms me (shiftInfo 1 n b) = false := by
        simp only [overlapsB, shiftInfo, Bool.and_eq_false_iff]
        left
        simp only [decide_eq_false_iff_not, not_lt]
        omega
      rw [hov]
      simp only [Bool.false_eq_true, if_false, ite_false]
      rfl
    rw [List.map_congr_left this, runInfos_map_run]


theorem filter_shift_start (rs : List Run) (n me : Nat) (h : n ≤ me) :
    (((runInfos rs).map (shiftInfo 1 n)).filter fun b => decide (b.start < me)) =
      ((runInfos rs).filter fun b => decide (b.start < me - n)).map (shiftInfo 1 n) := by
  rw [List.filter_map]
  congr 1
  refine List.filter_congr fun b _ => ?_
  simp only [Function.comp_apply, shiftInfo]
  rw [decide_eq_decide]
  omega

theorem filter_overlaps_eq_start (rs : List Run) (n ms me : Nat) (h1 : ms < n) (h2 : n ≤ me) :
    (((runInfos rs).map (shiftInfo 1 n)).filter (overlapsB ms me)) =
      ((runInfos rs).filter fun b => decide (b.start < me - n)).map (shiftInfo 1 n) := by
  rw [List.filter_map]
  congr 1
  refine List.filter_congr fun b _ => ?_
  simp only [Function.comp_apply, overlapsB, shiftInfo]
  have hs : decide (ms < b.stop + n) = true := by
    simp only [decide_eq_true_eq]
    omega
  rw [hs, Bool.and_true, decide_eq_decide]
  omega

theorem runInfos_ne_nil (r : Run) (rs : List Run) : runInfos (r :: rs) ≠ [] := by
  rw [runInfos_cons]
  exact List.cons_ne_nil _ _

theorem concatText_length (rs : List Run) :
    (concatText rs).length = (rs.map fun r => r.text.length).sum := by
  simp only [concatText, List.length_flatten, List.map_map]
  rfl


theorem filter_start_ne_nil (rs : List Run) (me : Nat) (hne : rs ≠ []) (hpos : 0 < me) :
    ((runInfos rs).filter fun b => decide (b.start < me)) ≠ [] := by
  cases rs with
  | nil => exact absurd rfl hne
  | cons r' rs' =>
    rw [runInfos_cons, List.filter_cons]
    have hd : decide ((⟨0, r', 0, r'.text.length⟩ : RunInfo).start < me) = true := by
      simp only [decide_eq_true_eq]
      omega
    rw [hd]
    simp only [if_true, ite_true]
    exact List.cons_ne_nil _ _

theorem overlapsB_shift_within (n ms me : Nat) (h1 : ms < n) (h2 : n ≤ me) (b : RunInfo) :
    overlapsB ms me (shiftInfo 1 n b) = decide (b.start < me - n) := by
  simp only [overlapsB, shiftInfo]
  have hs : decide (ms < b.stop + n) = true := by
    simp only [decide_eq_true_eq]
    omega
  rw [hs, Bool.and_true, decide_eq_decide]
  omega

/-- Case: the match starts inside the head run and extends beyond it. -/
theorem spliceStep_cons_multi (r : Run) (rs : List Run) (ms me : Nat) (repl : Str)
    (h1 : ms < r.text.length) (h2 : r.text.length < me)
    (h3 : me ≤ r.text.length + (concatText rs).length) :
    spliceStep (r :: rs) ms me repl =
      { r with text := r.text.take ms ++ repl } :: tailSplice rs (me - r.text.length) := by
  set n := r.text.length with hn
  have hrs : rs ≠ [] := by
    intro hcon
    subst hcon
    simp only [concatText, List.map_nil, List.flatten_nil, List.length_nil] at h3
    omega
  have haffc : (runInfos (r :: rs)).filter (overlapsB ms me) =
      ⟨0, r, 0, n⟩ :: ((runInfos rs).filter fun b => decide (b.start < me - n)).map
        (shiftInfo 1 n) := by
    rw [runInfos_cons, List.filter_cons]
    have hov : overlapsB ms me ⟨0, r, 0, n⟩ = true := by
      simp only [overlapsB, Bool.and_eq_true, decide_eq_true_eq]
      exact ⟨by omega, h1⟩
    rw [hov, filter_overlaps_eq_start rs n ms me h1 (by omega)]
    simp only [if_true, ite_true]
  cases haff' : (runInfos rs).filter fun b => decide (b.start < me - n) with
  | nil => exact absurd haff' (filter_start_ne_nil rs (me - n) hrs (by omega))
  | cons f' t' =>
    rw [spliceStep, haffc, haff']
    have hhd : (⟨0, r, 0, n⟩ :: (f' :: t').map (shiftInfo 1 n)).head? =
        some ⟨0, r, 0, n⟩ := rfl
    have hlst : (⟨0, r, 0, n⟩ :: (f' :: t').map (shiftInfo 1 n)).getLast? =
        some (shiftInfo 1 n ((f' :: t').getLast (by simp))) := by
      rw [List.map_cons, List.getLast?_cons_cons, ← List.map_cons, List.getLast?_map,
        List.getLast?_eq_getLast _ (by simp)]
      rfl
    rw [hhd, hlst]
    dsimp only
    rw [runInfos_cons, List.map_cons]
    refine congrArg₂ _ ?_ ?_
    · rw [spliceRewriteRun]
      have hov : overlapsB ms me ⟨0, r, 0, n⟩ = true := by
        simp only [overlapsB, Bool.and_eq_true, decide_eq_true_eq]
        exact ⟨by omega, h1⟩
      rw [hov]
      have hlen : ((⟨0, r, 0, n⟩ :: (f' :: t').map (shiftInfo 1 n)).length == 1) = false := by
        simp
      rw [hlen]
      simp only [if_true, ite_true, Bool.false_eq_true, if_false, ite_false]
      have hfi : ((⟨0, r, 0, n⟩ : RunInfo).idx == (⟨0, r, 0, n⟩ : RunInfo).idx) = true := by simp
      rw [hfi]
      simp only [if_true, ite_true]
      rw [show preOf ⟨0, r, 0, n⟩ ms = r.text.take ms by simp [preOf]]
    · rw [tailSplice, haff', List.getLast?_eq_getLast _ (by simp)]
      dsimp only
      rw [List.map_map]
      refine List.map_congr_left fun b hb => ?_
      simp only [Function.comp_apply, spliceRewriteRun]
      rw [overlapsB_shift_within n ms me h1 (by omega) b]
      by_cases hcond : b.start < me - n
      · rw [if_pos (by simpa using hcond)]
        have hlen : ((⟨0, r, 0, n⟩ :: (f' :: t').map (shiftInfo 1 n)).length == 1) = false := by
          simp
        rw [hlen]
        simp only [Bool.false_eq_true, if_false, ite_false]
        have hfi : ((shiftInfo 1 n b).idx == (⟨0, r, 0, n⟩ : RunInfo).idx) = false := by
          simp [shiftInfo]
        rw [hfi]
        simp only [Bool.false_eq_true, if_false, ite_false]
        have hli : ((shiftInfo 1 n b).idx == (shiftInfo 1 n ((f' :: t').getLast (by simp))).idx) =
            (b.idx == ((f' :: t').getLast (by simp)).idx) := by
          simp only [shiftInfo]
          exact beq_add_one _ _
        rw [hli, sufOf_shift _ n me (by omega)]
        rw [if_pos hcond]
        rfl
      · rw [if_neg (by simpa using hcond), if_neg hcond]
        rfl


theorem filter_shift_start_nil (rs : List Run) (n me : Nat) (h : me ≤ n) :
    (((runInfos rs).map (shiftInfo 1 n)).filter fun b => decide (b.start < me)) = [] := by
  rw [List.filter_eq_nil_iff]
  intro b hb
  obtain ⟨b', _, rfl⟩ := List.mem_map.mp hb
  simp only [shiftInfo, decide_eq_true_eq, not_lt]
  omega

theorem concatText_cons_length (r : Run) (rs : List Run) :
    (concatText (r :: rs)).length = r.text.length + (concatText rs).length := by
  rw [concatText_cons, List.length_append]

theorem tailSplice_eq_tailModel : ∀ (rs : List Run) (me : Nat),
    0 < me → me ≤ (concatText rs).length → tailSplice rs me = tailModel me rs
  | [], me, hpos, hle => by
    simp only [concatText, List.map_nil, List.flatten_nil, List.length_nil] at hle
    omega
  | r :: rs, me, hpos, hle => by
    set n := r.text.length with hn
    rw [concatText_cons_length] at hle
    by_cases hcase : me ≤ n
    · have hfil : ((runInfos (r :: rs)).filter fun b => decide (b.start < me)) =
          [⟨0, r, 0, n⟩] := by
        rw [runInfos_cons, List.filter_cons]
        have hd : decide ((⟨0, r, 0, n⟩ : RunInfo).start < me) = true := by
          simp only [decide_eq_true_eq]
          exact hpos
        rw [hd, filter_shift_start_nil rs n me hcase]
        simp only [if_true, ite_true]
      rw [tailSplice, hfil]
      rw [show ([(⟨0, r, 0, n⟩ : RunInfo)]).getLast? = some ⟨0, r, 0, n⟩ from rfl]
      dsimp only
      rw [tailModel, if_pos hcase]
      rw [runInfos_cons, List.map_cons]
      refine congrArg₂ _ ?_ ?_
      · rw [if_pos (show (⟨0, r, 0, n⟩ : RunInfo).start < me from hpos)]
        rw [if_pos (by simp : ((⟨0, r, 0, n⟩ : RunInfo).idx == (⟨0, r, 0, n⟩ : RunInfo).idx)
          = true)]
        rw [sufOf_head r n me hcase hn]
      · rw [List.map_map]
        have hpt : ∀ b ∈ runInfos rs,
            ((fun b => if b.start < me then
                (if b.idx == (⟨0, r, 0, n⟩ : RunInfo).idx then
                  { b.run with text := sufOf ⟨0, r, 0, n⟩ me }
                 else { b.run with text := [] })
              else b.run) ∘ shiftInfo 1 n) b = RunInfo.run b := by
          intro b _
          simp only [Function.comp_apply, shiftInfo]
          rw [if_neg (by omega)]
        rw [List.map_congr_left hpt, runInfos_map_run]
    · push_neg at hcase
      cases haff' : (runInfos rs).filter fun b => decide (b.start < me - n) with
      | nil =>
        exact absurd haff' (filter_start_ne_nil rs (me - n)
          (by rintro rfl; simp only [concatText, List.map_nil, List.flatten_nil,
            List.length_nil] at hle; omega) (by omega))
      | cons f' t' =>
        have hfil : ((runInfos (r :: rs)).filter fun b => decide (b.start < me)) =
            ⟨0, r, 0, n⟩ :: (f' :: t').map (shiftInfo 1 n) := by
          rw [runInfos_cons, List.filter_cons]
          have hd : decide ((⟨0, r, 0, n⟩ : RunInfo).start < me) = true := by
            simp only [decide_eq_true_eq]
            exact hpos
          rw [hd, filter_shift_start rs n me (by omega), haff']
          simp only [if_true, ite_true]
        rw [tailSplice, hfil]
        have hlst : (⟨0, r, 0, n⟩ :: (f' :: t').map (shiftInfo 1 n)).getLast? =
            some (shiftInfo 1 n ((f' :: t').getLast (by simp))) := by
          rw [List.map_cons, List.getLast?_cons_cons, ← List.map_cons, List.getLast?_map,
            List.getLast?_eq_getLast _ (by simp)]
          rfl
        rw [hlst]
        dsimp only
        rw [tailModel, if_neg (by omega)]
        rw [runInfos_cons, List.map_cons]
        refine congrArg₂ _ ?_ ?_
        · rw [if_pos (show (⟨0, r, 0, n⟩ : RunInfo).start < me from hpos)]
          rw [if_neg (show ¬((⟨0, r, 0, n⟩ : RunInfo).idx ==
              (shiftInfo 1 n ((f' :: t').getLast (by simp))).idx) = true by
            simp only [shiftInfo, beq_iff_eq]
            omega)]
        · rw [List.map_map]
          rw [← tailSplice_eq_tailModel rs (me - n) (by omega) (by omega)]
          rw [tailSplice, haff', List.getLast?_eq_getLast _ (by simp)]
          dsimp only
          refine List.map_congr_left fun b hb => ?_
          simp only [Function.comp_apply]
          by_cases hcond : b.start < me - n
          · rw [if_pos (show (shiftInfo 1 n b).start < me by simp only [shiftInfo]; omega),
              if_pos hcond]
            rw [show ((shiftInfo 1 n b).idx == (shiftInfo 1 n ((f' :: t').getLast (by simp))).idx)
                = (b.idx == ((f' :: t').getLast (by simp)).idx) from beq_add_one _ _]
            rw [sufOf_shift _ n me (by omega)]
            rfl
          · rw [if_neg (show ¬(shiftInfo 1 n b).start < me by simp only [shiftInfo]; omega),
              if_neg hcond]
            rfl


theorem spliceStep_eq_spliceModel : ∀ (rs : List Run) (ms me : Nat) (repl : Str),
    ms < me → me ≤ (concatText rs).length →
    spliceStep rs ms me repl = spliceModel ms me repl rs
  | [], ms, me, repl, h1, h2 => by
    simp only [concatText, List.map_nil, List.flatten_nil, List.length_nil] at h2
    omega
  | r :: rs, ms, me, repl, h1, h2 => by
    set n := r.text.length with hn
    rw [concatText_cons_length] at h2
    rcases Nat.lt_or_ge ms n with hms | hms
    · rcases le_or_lt me n with hme | hme
      · rw [spliceStep_cons_single r rs ms me repl hms h1 hme, spliceModel,
          if_neg (by omega), if_pos hme]
      · rw [spliceStep_cons_multi r rs ms me repl hms hme (by omega), spliceModel,
          if_neg (by omega), if_neg (by omega),
          tailSplice_eq_tailModel rs (me - n) (by omega) (by omega)]
    · rw [spliceStep_cons_skip r rs ms me repl hms h1, spliceModel, if_pos hms,
        spliceStep_eq_spliceModel rs (ms - n) (me - n) repl (by omega) (by omega)]

theorem tailModel_concat : ∀ (me : Nat) (rs : List Run),
    concatText (tailModel me rs) = (concatText rs).drop me
  | me, [] => by
    simp [tailModel, concatText]
  | me, r :: rs => by
    rw [tailModel]
    by_cases h : me ≤ r.text.length
    · rw [if_pos h, concatText_cons, concatText_cons, List.drop_append_eq_append_drop]
      rw [show me - r.text.length = 0 by omega, List.drop_zero]
    · rw [if_neg h, concatText_cons, concatText_cons, tailModel_concat (me - r.text.length) rs,
        List.drop_append_eq_append_drop,
        List.drop_eq_nil_of_le (by omega : r.text.length ≤ me)]

theorem spliceModel_concat : ∀ (rs : List Run) (ms me : Nat) (repl : Str),
    ms < me → me ≤ (concatText rs).length →
    concatText (spliceModel ms me repl rs) =
      (concatText rs).take ms ++ repl ++ (concatText rs).drop me
  | [], ms, me, repl, h1, h2 => by
    simp only [concatText, List.map_nil, List.flatten_nil, List.length_nil] at h2
    omega
  | r :: rs, ms, me, repl, h1, h2 => by
    set n := r.text.length with hn
    rw [concatText_cons_length] at h2
    rw [spliceModel]
    rcases Nat.lt_or_ge ms n with hms | hms
    · rcases le_or_lt me n with hme | hme
      · rw [if_neg (by omega), if_pos hme]
        rw [concatText_cons, concatText_cons, List.take_append_eq_append_take,
          List.drop_append_eq_append_drop,
          show ms - n = 0 by omega, show me - n = 0 by omega,
          List.take_zero, List.drop_zero]
        simp only [List.append_assoc, List.append_nil]
      · rw [if_neg (by omega), if_neg (by omega)]
        rw [concatText_cons, concatText_cons, tailModel_concat (me - n) rs,
          List.take_append_eq_append_take, List.drop_append_eq_append_drop,
          show ms - n = 0 by omega, List.take_zero,
          List.drop_eq_nil_of_le (by omega : r.text.length ≤ me)]
        simp only [List.append_assoc, List.append_nil, List.nil_append]
    · rw [if_pos hms]
      rw [concatText_cons, concatText_cons,
        spliceModel_concat rs (ms - n) (me - n) repl (by omega) (by omega),
        List.take_append_eq_append_take, List.drop_append_eq_append_drop,
        List.take_of_length_le (by omega : r.text.length ≤ ms),
        List.drop_eq_nil_of_le (by omega : r.text.length ≤ me)]
      simp only [List.append_assoc, List.nil_append]

/-- C2. For every paragraph run list and every match at offsets `[ms, me)`
of the concatenated run text, one splice step of
`_apply_replacements_to_paragraph` rewrites the runs so that the new
concatenated text equals `old_text[:ms] ++ replacement ++ old_text[me:]`,
and the rewrite has exactly the stated per-run shape, captured by the
recursive reformulation `spliceModel`: a run ending before the match is
untouched, the first overlapping run keeps its pre-match prefix and
receives the replacement (with the post-match suffix appended directly when
it is the only overlapping run), fully-interior runs become empty, and the
last overlapping run keeps only its post-match suffix. This holds for any
in-range match, in particular when no single run contains the whole
original. -/
theorem spliceStep_concat_and_shape (runs : List Run) (ms me : Nat) (repl : Str)
    (h1 : ms < me) (h2 : me ≤ (concatText runs).length) :
    concatText (spliceStep runs ms me repl) =
      (concatText runs).take ms ++ repl ++ (concatText runs).drop me ∧
    spliceStep runs ms me repl = spliceModel ms me repl runs := by
  refine ⟨?_, spliceStep_eq_spliceModel runs ms me repl h1 h2⟩
  rw [spliceStep_eq_spliceModel runs ms me repl h1 h2,
    spliceModel_concat runs ms me repl h1 h2]

/-- C2 witness: the spec's cross-fragment example, the email at offsets
`[7, 34)` of `"Email: priya" ++ ".fernando92@finance" ++ ".lk"`, spliced
across all three runs. -/
theorem spliceStep_concat_and_shape_witness :
    concatText (spliceStep [⟨"Email: priya".data, 1⟩, ⟨".fernando92@finance".data, 2⟩,
        ⟨".lk".data, 3⟩] 7 34 "person_1@example.com".data) =
      (concatText [⟨"Email: priya".data, 1⟩, ⟨".fernando92@finance".data, 2⟩,
        ⟨".lk".data, 3⟩]).take 7 ++ "person_1@example.com".data ++
      (concatText [⟨"Email: priya".data, 1⟩, ⟨".fernando92@finance".data, 2⟩,
        ⟨".lk".data, 3⟩]).drop 34 ∧
    spliceStep [⟨"Email: priya".data, 1⟩, ⟨".fernando92@finance".data, 2⟩,
        ⟨".lk".data, 3⟩] 7 34 "person_1@example.com".data =
      spliceModel 7 34 "person_1@example.com".data
        [⟨"Email: priya".data, 1⟩, ⟨".fernando92@finance".data, 2⟩, ⟨".lk".data, 3⟩] :=
  spliceStep_concat_and_shape
    [⟨"Email: priya".data, 1⟩, ⟨".fernando92@finance".data, 2⟩, ⟨".lk".data, 3⟩]
    7 34 "person_1@example.com".data (by decide) (by decide)




theorem netLoop_noop (keep : Str → Bool) (mk : Str → Nat → Entry) :
    ∀ (gs : List Str) (reps : List Entry) (covered : List Str) (k : Nat),
      (∀ g ∈ gs, keep g = true → lowerStr g ∈ covered) →
      netLoop keep mk gs reps covered k = (reps, covered, k)
  | [], _, _, _, _ => rfl
  | g :: gs, reps, covered, k, h => by
    rw [netLoop]
    by_cases hk : keep g = true
    · rw [if_pos hk, if_pos (h g (List.mem_cons_self g gs) hk)]
      exact netLoop_noop keep mk gs reps covered k fun g' hg' => h g' (List.mem_cons_of_mem g hg')
    · rw [if_neg hk]
      exact netLoop_noop keep mk gs reps covered k fun g' hg' => h g' (List.mem_cons_of_mem g hg')

theorem netLoop_covered_mono (keep : Str → Bool) (mk : Str → Nat → Entry) :
    ∀ (gs : List Str) (reps : List Entry) (covered : List Str) (k : Nat) (x : Str),
      x ∈ covered → x ∈ (netLoop keep mk gs reps covered k).2.1
  | [], _, _, _, _, hx => hx
  | g :: gs, reps, covered, k, x, hx => by
    rw [netLoop]
    by_cases hk : keep g = true
    · rw [if_pos hk]
      by_cases hc : lowerStr g ∈ covered
      · rw [if_pos hc]
        exact netLoop_covered_mono keep mk gs reps covered k x hx
      · rw [if_neg hc]
        exact netLoop_covered_mono keep mk gs _ _ _ x (List.mem_append_left _ hx)
    · rw [if_neg hk]
      exact netLoop_covered_mono keep mk gs reps covered k x hx

theorem netLoop_groups_covered (keep : Str → Bool) (mk : Str → Nat → Entry) :
    ∀ (gs : List Str) (reps : List Entry) (covered : List Str) (k : Nat) (g : Str),
      g ∈ gs → keep g = true → lowerStr g ∈ (netLoop keep mk gs reps covered k).2.1
  | [], _, _, _, _, hg, _ => absurd hg (List.not_mem_nil _)
  | g' :: gs, reps, covered, k, g, hg, hkeep => by
    rcases List.mem_cons.mp hg with rfl | htl
    · rw [netLoop, if_pos hkeep]
      by_cases hc : lowerStr g ∈ covered
      · rw [if_pos hc]
        exact netLoop_covered_mono keep mk gs reps covered k _ hc
      · rw [if_neg hc]
        exact netLoop_covered_mono keep mk gs _ _ _ _
          (List.mem_append_right _ (List.mem_singleton_self _))
    · rw [netLoop]
      by_cases hk : keep g' = true
      · rw [if_pos hk]
        by_cases hc : lowerStr g' ∈ covered
        · rw [if_pos hc]
          exact netLoop_groups_covered keep mk gs reps covered k g htl hkeep
        · rw [if_neg hc]
          exact netLoop_groups_covered keep mk gs _ _ _ g htl hkeep
      · rw [if_neg hk]
        exact netLoop_groups_covered keep mk gs reps covered k g htl hkeep

theorem coveredInit_append (l1 l2 : List Entry) (x : Str) :
    x ∈ coveredInit (l1 ++ l2) ↔ x ∈ coveredInit l1 ∨ x ∈ coveredInit l2 := by
  induction l1 with
  | nil => simp [coveredInit]
  | cons r rs ih =>
    by_cases h : r.original.contains '@' = true <;>
      simp only [List.cons_append, coveredInit, h, if_true, ite_true, Bool.not_eq_true,
        if_false, ite_false, List.mem_append, List.mem_cons, List.mem_singleton, ih,
        List.not_mem_nil, or_false, false_or] <;>
      tauto


theorem mem_coveredInit_iff (reps : List Entry) (x : Str) :
    x ∈ coveredInit reps ↔
      ∃ r ∈ reps, x = lowerStr r.original ∨
        (r.original.contains '@' = true ∧ x = stripDotsBeforeAt (lowerStr r.original)) := by
  induction reps with
  | nil => simp [coveredInit]
  | cons r rs ih =>
    have hmem : x ∈ coveredInit (r :: rs) ↔
        (x = lowerStr r.original ∨
          (r.original.contains '@' = true ∧ x = stripDotsBeforeAt (lowerStr r.original))) ∨
        x ∈ coveredInit rs := by
      by_cases h : r.original.contains '@' = true
      · simp only [coveredInit, h, if_true, ite_true, List.cons_append, List.singleton_append,
          List.mem_cons]
        tauto
      · simp only [Bool.not_eq_true] at h
        simp only [coveredInit, h, Bool.false_eq_true, if_false, ite_false, List.cons_append,
          List.nil_append, List.mem_cons, false_and, or_false]
    rw [hmem, ih]
    constructor
    · rintro (hx | ⟨r', hr', hx⟩)
      · exact ⟨r, List.mem_cons_self r rs, hx⟩
      · exact ⟨r', List.mem_cons_of_mem r hr', hx⟩
    · rintro ⟨r', hr', hx⟩
      rcases List.mem_cons.mp hr' with rfl | hr'
      · exact Or.inl hx
      · exact Or.inr ⟨r', hr', hx⟩

theorem netLoop_covered_sound (keep : Str → Bool) (mk : Str → Nat → Entry)
    (hmk : ∀ g k, (mk g k).original = g) :
    ∀ (gs : List Str) (reps : List Entry) (covered : List Str) (k : Nat),
      (∀ x ∈ covered, x ∈ coveredInit reps) →
      ∀ x ∈ (netLoop keep mk gs reps covered k).2.1,
        x ∈ coveredInit (netLoop keep mk gs reps covered k).1
  | [], reps, covered, k, hinv, x, hx => hinv x hx
  | g :: gs, reps, covered, k, hinv, x, hx => by
    rw [netLoop] at hx ⊢
    by_cases hk : keep g = true
    · rw [if_pos hk] at hx ⊢
      by_cases hc : lowerStr g ∈ covered
      · rw [if_pos hc] at hx ⊢
        exact netLoop_covered_sound keep mk hmk gs reps covered k hinv x hx
      · rw [if_neg hc] at hx ⊢
        refine netLoop_covered_sound keep mk hmk gs _ _ _ ?_ x hx
        intro y hy
        rcases List.mem_append.mp hy with hy | hy
        · exact (coveredInit_append reps [mk g k] y).mpr (Or.inl (hinv y hy))
        · simp only [List.mem_singleton] at hy
          refine (coveredInit_append reps [mk g k] y).mpr (Or.inr ?_)
          subst hy
          simp [coveredInit, hmk]
    · rw [if_neg hk] at hx ⊢
      exact netLoop_covered_sound keep mk hmk gs reps covered k hinv x hx


/-- C5. The regex safety net is idempotent: running
`_apply_regex_safety_net` a second time on the same flattened text, with
the set as augmented by the first run, adds no entries, removes none, and
changes no replacement value or counter numbering — the augmented set is
literally the same list after one run and after two. -/
theorem applyRegexSafetyNet_idempotent (text : Str) (reps : List Entry) :
    applyRegexSafetyNet text (applyRegexSafetyNet text reps) = applyRegexSafetyNet text reps := by
  set EG := patternGroups emailPattern text with hEG
  set PG := phoneGroupsOf text with hPG
  set NG := nicGroupsOf text with hNG
  set st1 := netLoop (fun _ => true) mkEmailEntry EG reps (coveredInit reps)
    (countWithType reps "email".data + 1) with hst1
  set st2 := netLoop phoneKeep mkPhoneEntry PG st1.1 st1.2.1
    (countWithType reps "phone".data + 1) with hst2
  set st3 := netLoop (fun _ => true) mkIdEntry NG st2.1 st2.2.1
    (countIdTypes st2.1 + 1) with hst3
  have hL1 : applyRegexSafetyNet text reps = st3.1 := rfl
  have hinv1 : ∀ x ∈ st1.2.1, x ∈ coveredInit st1.1 := by
    rw [hst1]
    exact netLoop_covered_sound _ _ (fun g k => rfl) EG reps (coveredInit reps) _ (fun x hx => hx)
  have hinv2 : ∀ x ∈ st2.2.1, x ∈ coveredInit st2.1 := by
    rw [hst2]
    exact netLoop_covered_sound _ _ (fun g k => rfl) PG st1.1 st1.2.1 _ hinv1
  have hinv3 : ∀ x ∈ st3.2.1, x ∈ coveredInit st3.1 := by
    rw [hst3]
    exact netLoop_covered_sound _ _ (fun g k => rfl) NG st2.1 st2.2.1 _ hinv2
  have hA : ∀ g ∈ EG, lowerStr g ∈ coveredInit st3.1 := by
    intro g hg
    apply hinv3
    rw [hst3]
    apply netLoop_covered_mono
    rw [hst2]
    apply netLoop_covered_mono
    rw [hst1]
    exact netLoop_groups_covered _ _ EG reps _ _ g hg rfl
  have hB : ∀ g ∈ PG, phoneKeep g = true → lowerStr g ∈ coveredInit st3.1 := by
    intro g hg hk
    apply hinv3
    rw [hst3]
    apply netLoop_covered_mono
    rw [hst2]
    exact netLoop_groups_covered _ _ PG _ _ _ g hg hk
  have hC : ∀ g ∈ NG, lowerStr g ∈ coveredInit st3.1 := by
    intro g hg
    apply hinv3
    rw [hst3]
    exact netLoop_groups_covered _ _ NG _ _ _ g hg rfl
  have e1 : netLoop (fun _ => true) mkEmailEntry EG st3.1 (coveredInit st3.1)
      (countWithType st3.1 "email".data + 1) =
      (st3.1, coveredInit st3.1, countWithType st3.1 "email".data + 1) :=
    netLoop_noop _ _ EG _ _ _ (fun g hg _ => hA g hg)
  have e2 : netLoop phoneKeep mkPhoneEntry PG st3.1 (coveredInit st3.1)
      (countWithType st3.1 "phone".data + 1) =
      (st3.1, coveredInit st3.1, countWithType st3.1 "phone".data + 1) :=
    netLoop_noop _ _ PG _ _ _ hB
  have e3 : netLoop (fun _ => true) mkIdEntry NG st3.1 (coveredInit st3.1)
      (countIdTypes st3.1 + 1) =
      (st3.1, coveredInit st3.1, countIdTypes st3.1 + 1) :=
    netLoop_noop _ _ NG _ _ _ (fun g hg _ => hC g hg)
  rw [hL1]
  simp only [applyRegexSafetyNet, ← hEG, ← hPG, ← hNG]
  rw [e1]
  simp only []
  rw [e2]
  simp only []
  rw [e3]


/-- C6 counterexample. Dedup is not dot-insensitive in both directions:
with the existing entry `johndoe@x.com` and the text containing
`john.doe@x.com`, the match differs from the covered entry only by a dot
before the `@`, yet the safety net adds a new entry for it (the match's own
dots are never stripped — only existing entries are normalized). -/
theorem safety_net_dotted_match_added_counterexample :
    (applyRegexSafetyNet "contact john.doe@x.com today".data
        [⟨"johndoe@x.com".data, some "email".data, "r".data⟩]).map Entry.original =
      ["johndoe@x.com".data, "john.doe@x.com".data] := by decide

/-- C6 amended. The safety net's dedup is case-insensitive and
dot-insensitive only for dots of the existing entries: a match is
recognized as already covered exactly when its lower-cased form equals the
lower-cased original of an existing entry, or the dot-stripped lower-cased
original of an existing entry containing `@`. In particular an existing
`john.doe@x.com` covers the match `johndoe@x.com` (no entry added), but not
the other way around. -/
theorem safety_net_email_dedup_existing_normalized (reps : List Entry) (email : Str) :
    (lowerStr email ∈ coveredInit reps ↔
      ∃ r ∈ reps, lowerStr email = lowerStr r.original ∨
        (r.original.contains '@' = true ∧
          lowerStr email = stripDotsBeforeAt (lowerStr r.original))) ∧
    applyRegexSafetyNet "contact johndoe@x.com today".data
        [⟨"john.doe@x.com".data, some "email".data, "r".data⟩] =
      [⟨"john.doe@x.com".data, some "email".data, "r".data⟩] :=
  ⟨mem_coveredInit_iff reps (lowerStr email), by decide⟩


end OIS
